import Mathlib

/-
Verification of the board entry store of the local-clipboard service.

The store keeps, per board, a Redis sorted set `board:{slug}:entries`
whose members are the JSON serializations of entries and whose scores are
the unix timestamps at insertion time (`app/redis_client.py`).  This file
embeds the sorted set, the entry record, and the operations `add_entry`,
`get_entries`, `find_entry_raw`, `delete_entry`, `cleanup_orphaned_images`,
plus the auth helpers `require_auth` (`app/main.py`) and the key
generation route, and proves the documented properties about them.

Modelling conventions:
  * A sorted-set member is a string.  We embed it as `Raw`: `Raw.valid e`
    stands for the string `e.model_dump_json()` (pydantic serialization,
    which is injective on records, so equality of `Raw` values coincides
    with equality of the member strings); `Raw.badDict` stands for a
    string that `json.loads` turns into a dict which then fails
    `Entry(**...)` validation, carrying the two dict fields the
    dict-level readers access; `Raw.garbage` stands for a string
    `json.loads` raises on.  The two failure layers are kept apart
    because the source mixes them: `get_entries` fully validates inside
    a per-record `try`, while `find_entry_raw`, `cleanup_orphaned_images`
    and `add_entry`'s file-cleanup loop read the json dict directly, and
    `delete_entry` validates outside any `try`.
  * Scores (`time.time()`) are modelled as natural numbers; only their
    ordering matters to the code.
  * Redis keeps a sorted set ordered by score, ties broken by the
    lexicographic (byte-wise) order of the member string; `zadd` of an
    existing member updates its score in place.  The `ZSet` embedding is a
    list kept in that ascending order.
  * The data directory is modelled as the list of file names inside
    `data/images`; `unlink(DATA_DIR / path)` removes the file whose
    relative path `images/{name}` equals `path`.
  * TTL refreshes (`expire`, `ex=`) have no observable effect on any
    claim below and are not modelled; the pipeline add/trim is modelled
    as one functional step, matching its transactional execution.
-/

namespace LanClip

/-- `Entry.type` in `app/models.py` is `Literal["text", "image"]`. -/
inductive EntryKind where
  | text
  | image
deriving DecidableEq, Repr

/-- The pydantic model `Entry` of `app/models.py`. -/
structure Entry where
  id : String
  type : EntryKind
  content : Option String := none
  image_path : Option String := none
  thumbnail : Option String := none
  mime : Option String := none
  file_size : Option Nat := none
  created_at : String
deriving DecidableEq, Repr

def kindStr : EntryKind → String
  | .text => "text"
  | .image => "image"

def jsonOptStr : Option String → String
  | none => "null"
  | some s => "\"" ++ s ++ "\""

def jsonOptNat : Option Nat → String
  | none => "null"
  | some n => toString n

/-- The member string `entry.model_dump_json()`: pydantic emits the fields
in declaration order, without spaces, `None` as `null`. -/
def serializeEntry (e : Entry) : String :=
  "\x7b\"id\":\"" ++ e.id ++ "\",\"type\":\"" ++ kindStr e.type ++
  "\",\"content\":" ++ jsonOptStr e.content ++
  ",\"image_path\":" ++ jsonOptStr e.image_path ++
  ",\"thumbnail\":" ++ jsonOptStr e.thumbnail ++
  ",\"mime\":" ++ jsonOptStr e.mime ++
  ",\"file_size\":" ++ jsonOptNat e.file_size ++
  ",\"created_at\":\"" ++ e.created_at ++ "\"\x7d"

/-- A stored sorted-set member string, as the two decoding layers of the
source see it.  `json.loads(raw)` and `Entry(**dict)` can fail
independently, and the data-access functions mix the layers:
  * `valid e` — `json.loads` succeeds and `Entry(**...)` validates,
    yielding `e`; the string is `e.model_dump_json()`.
  * `badDict id path s` — the string `s` is json-loadable into a dict
    (so the dict-level readers see it) but `Entry(**dict)` raises.
    The model carries exactly what those readers access:
    `id` is `dict.get("id")` when that is a string (`none` for a missing
    or non-string value, which can never equal the searched string id),
    and `path` is `dict.get("image_path")` when that is a string
    (`none` for missing/null/non-string values, which are either falsy
    or make the byte-level consumers raise inside their `try`).
  * `garbage s` — `json.loads(s)` raises, or yields a non-dict on which
    `.get` raises; every reader catches this inside its `try`. -/
inductive Raw where
  | valid (e : Entry)
  | badDict (id : Option String) (path : Option String) (s : String)
  | garbage (s : String)
deriving DecidableEq, Repr

/-- The member string a `Raw` stands for. -/
def rawStr : Raw → String
  | .valid e => serializeEntry e
  | .badDict _ _ s => s
  | .garbage s => s

/-- `Entry(**json.loads(raw))`, as a total function: `none` when either
layer fails. -/
def decodeRaw : Raw → Option Entry
  | .valid e => some e
  | .badDict _ _ _ => none
  | .garbage _ => none

/-- `json.loads(raw).get("id")` as a string-comparable value (the dict of
a valid entry holds its id; a missing or non-string value compares
unequal to every searched id). -/
def dictId : Raw → Option String
  | .valid e => some e.id
  | .badDict i _ _ => i
  | .garbage _ => none

/-- `json.loads(raw).get("image_path")` as a string value usable by the
file-handling callers (the dict of a valid entry holds its `image_path`
field, `null` included). -/
def dictImagePath : Raw → Option String
  | .valid e => e.image_path
  | .badDict _ ip _ => ip
  | .garbage _ => none

/-- The per-record test of `find_entry_raw`:
`json.loads(raw)` inside a `try` (a raise skips the record), then
`data.get("id") == entry_id` — with no Entry validation at all. -/
def findIdMatch (raw : Raw) (entryId : String) : Bool :=
  match raw with
  | .valid e => e.id == entryId
  | .badDict i _ _ => i == some entryId
  | .garbage _ => false

/-- Byte-wise lexicographic comparison of member strings (Redis `memcmp`
tie-breaking order). -/
def charsLt : List Char → List Char → Bool
  | [], [] => false
  | [], _ :: _ => true
  | _ :: _, [] => false
  | a :: as, b :: bs =>
      if a.toNat < b.toNat then true
      else if b.toNat < a.toNat then false
      else charsLt as bs

def strLt (a b : String) : Bool := charsLt a.data b.data

/-- A Redis sorted set: members with scores, kept ascending by
(score, member string). -/
abbrev ZSet := List (Raw × Nat)

/-- The strict sorted-set order: by score, ties by member string. -/
def zLtB (a b : Raw × Nat) : Bool :=
  decide (a.2 < b.2) || (decide (a.2 = b.2) && strLt (rawStr a.1) (rawStr b.1))

/-- Insert a member at its rank in the ascending order. -/
def zinsert (m : Raw × Nat) : ZSet → ZSet
  | [] => [m]
  | x :: xs => if zLtB m x then m :: x :: xs else x :: zinsert m xs

/-- `ZADD key {member: score}`: an already-present member (same member
string) gets its score updated in place; otherwise the member is added. -/
def zadd (z : ZSet) (m : Raw) (score : Nat) : ZSet :=
  zinsert (m, score) (z.filter (fun p => !(p.1 == m)))

/-- `ZREM key member`. -/
def zrem (z : ZSet) (m : Raw) : ZSet :=
  z.filter (fun p => !(p.1 == m))

/-- Rank-range selection with Redis index normalization: negative indices
count from the end, the range is clamped into the set, an inverted range
is empty. -/
def zslice (z : ZSet) (start stop : Int) : ZSet :=
  let n : Int := z.length
  let s : Int := max (if start < 0 then n + start else start) 0
  let e : Int := min (if stop < 0 then n + stop else stop) (n - 1)
  if s > e then [] else (z.drop s.toNat).take (e - s + 1).toNat

/-- `ZRANGE key start stop` (ascending rank order). -/
def zrange (z : ZSet) (start stop : Int) : List Raw :=
  (zslice z start stop).map (·.1)

/-- `ZREVRANGE key start stop` (descending rank order). -/
def zrevrange (z : ZSet) (start stop : Int) : List Raw :=
  (zslice z.reverse start stop).map (·.1)

/-- `ZREMRANGEBYRANK key start stop`: remove the selected rank range. -/
def zremrangebyrank (z : ZSet) (start stop : Int) : ZSet :=
  let n : Int := z.length
  let s : Int := max (if start < 0 then n + start else start) 0
  let e : Int := min (if stop < 0 then n + stop else stop) (n - 1)
  if s > e then z else z.take s.toNat ++ z.drop (e + 1).toNat

/-- `MAX_ENTRIES = int(os.getenv("MAX_ENTRIES_PER_BOARD", "20"))` with the
default value. -/
def MAX_ENTRIES : Nat := 20

/-- One board's observable state: its entry sorted set, its
`board:{slug}:authkey` string, and the files inside `data/images`. -/
structure BoardState where
  entries : ZSet
  authKey : Option String
  disk : List String
deriving DecidableEq, Repr

/-- `(DATA_DIR / path).unlink(missing_ok=True)` for a file of the images
directory (`path` is the stored relative locator `images/{name}`). -/
def unlinkPath (disk : List String) (path : String) : List String :=
  disk.filter (fun name => !("images/" ++ name == path))

/-- Step 3 of `add_entry`: for each pre-computed member,
`json.loads(raw)` and unlink `old["image_path"]` when
`old.get("image_path")` is truthy — a dict-level read, applied to any
json-loadable member whether or not it validates as an `Entry`; every
failure inside the loop body is swallowed by its `try`. -/
def trimmedFileCleanup (disk : List String) (existing : List Raw) : List String :=
  existing.foldl (fun d raw =>
    match dictImagePath raw with
    | some p => if p == "" then d else unlinkPath d p
    | none => d) disk

/-- `add_entry` (`app/redis_client.py`): pre-compute
`zrange(key, 0, -(MAX_ENTRIES + 1))`, then atomically
`zadd` + `zremrangebyrank(0, -(MAX_ENTRIES + 1))` (+ TTL refresh), then
unlink the image files of the pre-computed members. -/
def addEntry (st : BoardState) (e : Entry) (timestamp : Nat) : BoardState :=
  let existing := zrange st.entries 0 (-((MAX_ENTRIES : Int) + 1))
  let afterAdd := zadd st.entries (Raw.valid e) timestamp
  let afterTrim := zremrangebyrank afterAdd 0 (-((MAX_ENTRIES : Int) + 1))
  { st with entries := afterTrim, disk := trimmedFileCleanup st.disk existing }

/-- `get_entries`: `zrevrange(key, 0, -1)`, decoding each member and
skipping the ones that fail. -/
def getEntries (z : ZSet) : List Entry :=
  (zrevrange z 0 (-1)).filterMap decodeRaw

/-- `find_entry_raw`: scan `zrange(key, 0, -1)` for the first member
whose json dict carries the wanted id (`data.get("id") == entry_id`);
only a `json.loads` failure is skipped — a json-loadable record that
fails Entry validation still matches and is returned raw. -/
def findEntryRaw (z : ZSet) (entryId : String) : Option Raw :=
  (zrange z 0 (-1)).find? (fun raw => findIdMatch raw entryId)

/-- The three ways `delete_entry` can come back to its caller. -/
inductive DeleteResult where
  | notFound
  | deleted (e : Entry)
  | raised
deriving DecidableEq, Repr

/-- `delete_entry` (`app/redis_client.py`): find the raw member by dict
id, `zrem` it, then run `Entry(**json.loads(raw))` OUTSIDE any `try`:
when the found member is json-loadable but fails Entry validation the
exception escapes (`raised`) after the `zrem` already removed the member
and before any unlink; otherwise unlink the entry's truthy `image_path`
and return the entry. -/
def deleteEntry (st : BoardState) (entryId : String) : DeleteResult × BoardState :=
  match findEntryRaw st.entries entryId with
  | none => (.notFound, st)
  | some raw =>
    let z := zrem st.entries raw
    match decodeRaw raw with
    | none => (.raised, { st with entries := z })
    | some e =>
      let disk :=
        match e.image_path with
        | some p => if p == "" then st.disk else unlinkPath st.disk p
        | none => st.disk
      (.deleted e, { st with entries := z, disk := disk })

/-- `require_auth` (`app/main.py`): pass unless
`board_key and board_key != key` (Python truthiness: a `None` or empty
stored key never blocks). `true` means the request proceeds, `false`
means HTTP 401 Unauthorized. -/
def requireAuth (boardKey provided : Option String) : Bool :=
  match boardKey with
  | none => true
  | some k => if k == "" then true else provided == some k

/-- `generate_board_key` (`app/main.py`): refuse with 403 when an
existing truthy key mismatches the provided one, otherwise install a
freshly generated key (passed here as `newKey`, standing for the
`secrets.token_urlsafe(12)` result) and return it. -/
def generateBoardKey (st : BoardState) (provided : Option String) (newKey : String) :
    Option String × BoardState :=
  let allowed :=
    match st.authKey with
    | none => true
    | some k => k == "" || provided == some k
  if allowed then (some newKey, { st with authKey := some newKey })
  else (none, st)

/-- The `DELETE /b/{slug}/entries/{entry_id}` route (`app/main.py`):
auth check, store deletion, and the `delete_entry` pub/sub event that is
published only on success.  An exception escaping `rc.delete_entry`
propagates out of the handler (FastAPI answers 500) before any publish.
Result: HTTP status, new state, published events as (kind, entry id)
pairs. -/
def deleteEntryRoute (st : BoardState) (entryId : String) (provided : Option String) :
    Nat × BoardState × List (String × String) :=
  if requireAuth st.authKey provided then
    match deleteEntry st entryId with
    | (.notFound, st') => (404, st', [])
    | (.raised, st') => (500, st', [])
    | (.deleted _, st') => (204, st', [("delete_entry", entryId)])
  else (401, st, [])

/-- A sequence of `add_entry` calls against one board. -/
def runInserts (st : BoardState) (xs : List (Entry × Nat)) : BoardState :=
  xs.foldl (fun s p => addEntry s p.1 p.2) st

/-- The referenced-locator collection of `cleanup_orphaned_images`: the
truthy `data.get("image_path")` of every json-loadable member of every
board — a dict-level read that also counts records failing Entry
validation; `json.loads` failures are swallowed per record. -/
def referencedPaths (boards : List ZSet) : List String :=
  boards.flatMap (fun z =>
    (zrange z 0 (-1)).filterMap (fun raw =>
      match dictImagePath raw with
      | some p => if p == "" then none else some p
      | none => none))

/-- `cleanup_orphaned_images` (`app/redis_client.py`): keep exactly the
files of `data/images` whose relative locator `images/{name}` is
referenced; unlink the rest. -/
def cleanupOrphanedImages (disk : List String) (referenced : List String) : List String :=
  disk.filter (fun name => referenced.contains ("images/" ++ name))

/-- The members whose `json.loads` raises — the only records the
`try`/`except` of `find_entry_raw` actually skips. -/
def isGarbage : Raw → Bool
  | .garbage _ => true
  | _ => false

/-- Entries of a listing paired with their creation scores, for stating
order properties of `get_entries`. -/
def listScored (z : ZSet) : List (Entry × Nat) :=
  z.reverse.filterMap (fun p => (decodeRaw p.1).map (fun e => (e, p.2)))

/-- An insert history as the sorted-set members it produces. -/
def scoredOf (xs : List (Entry × Nat)) : ZSet :=
  xs.map (fun p => (Raw.valid p.1, p.2))

/-- The representation invariant of a Redis sorted set: strictly
ascending by (score, member string). -/
def ZSorted (z : ZSet) : Prop :=
  z.Pairwise (fun a b => a.2 < b.2 ∨ (a.2 = b.2 ∧ strLt (rawStr a.1) (rawStr b.1) = true))

/-- A text entry, as built by the create-entry route. -/
def textEntry (i : String) : Entry :=
  { id := i, type := .text, content := some "x", created_at := "t" }

/-- A fresh board. -/
def emptyBoard : BoardState := { entries := [], authKey := none, disk := [] }

/-! ### Rank arithmetic -/

theorem zslice_full (z : ZSet) : zslice z 0 (-1) = z := by
  cases z with
  | nil => rfl
  | cons x xs =>
    simp only [zslice]
    have hn : ((x :: xs).length : Int) = (xs.length : Int) + 1 := by
      simp [List.length_cons]
    simp only [hn]
    have h0 : ¬((0 : Int) < 0) := by omega
    have h1 : (-1 : Int) < 0 := by omega
    rw [if_neg h0, if_pos h1]
    have hmax : max (0 : Int) 0 = 0 := by omega
    have hmin : min ((xs.length : Int) + 1 + -1) ((xs.length : Int) + 1 - 1)
        = (xs.length : Int) := by omega
    rw [hmax, hmin]
    have hgt : ¬((0 : Int) > (xs.length : Int)) := by omega
    rw [if_neg hgt]
    have : ((xs.length : Int) - 0 + 1).toNat = xs.length + 1 := by omega
    simp [this, List.take_length]

theorem zremrange_trim (z : ZSet) :
    zremrangebyrank z 0 (-((MAX_ENTRIES : Int) + 1)) = z.drop (z.length - MAX_ENTRIES) := by
  simp only [zremrangebyrank, MAX_ENTRIES, Nat.cast_ofNat]
  have h0 : ¬((0 : Int) < 0) := by omega
  have h1 : (-((20 : Int) + 1)) < 0 := by omega
  rw [if_neg h0, if_pos h1]
  have hmax : max (0 : Int) 0 = 0 := by omega
  rw [hmax]
  by_cases hlen : z.length ≤ 20
  · have hgt : (0 : Int) > min ((z.length : Int) + -(20 + 1)) ((z.length : Int) - 1) := by
      omega
    rw [if_pos hgt]
    have : z.length - 20 = 0 := by omega
    simp [this]
  · have hmin : min ((z.length : Int) + -(20 + 1)) ((z.length : Int) - 1)
        = (z.length : Int) - 21 := by omega
    rw [hmin]
    have hgt : ¬((0 : Int) > (z.length : Int) - 21) := by omega
    rw [if_neg hgt]
    have : ((z.length : Int) - 21 + 1).toNat = z.length - 20 := by omega
    simp [this]

theorem zrange_precompute (z : ZSet) :
    zrange z 0 (-((MAX_ENTRIES : Int) + 1)) = (z.take (z.length - MAX_ENTRIES)).map (·.1) := by
  simp only [zrange, zslice, MAX_ENTRIES, Nat.cast_ofNat]
  have h0 : ¬((0 : Int) < 0) := by omega
  have h1 : (-((20 : Int) + 1)) < 0 := by omega
  rw [if_neg h0, if_pos h1]
  have hmax : max (0 : Int) 0 = 0 := by omega
  rw [hmax]
  by_cases hlen : z.length ≤ 20
  · have hgt : (0 : Int) > min ((z.length : Int) + -(20 + 1)) ((z.length : Int) - 1) := by
      omega
    rw [if_pos hgt]
    have : z.length - 20 = 0 := by omega
    simp [this]
  · have hmin : min ((z.length : Int) + -(20 + 1)) ((z.length : Int) - 1)
        = (z.length : Int) - 21 := by omega
    rw [hmin]
    have hgt : ¬((0 : Int) > (z.length : Int) - 21) := by omega
    rw [if_neg hgt]
    have : ((z.length : Int) - 21 + 1 - 0).toNat = z.length - 20 := by omega
    simp [this]
    omega

theorem zrange_full (z : ZSet) : zrange z 0 (-1) = z.map (·.1) := by
  unfold zrange
  rw [zslice_full]

theorem zrevrange_full (z : ZSet) : zrevrange z 0 (-1) = z.reverse.map (·.1) := by
  unfold zrevrange
  rw [zslice_full]

/-! ### Ordered insertion -/

theorem zLtB_false_of_lt (m p : Raw × Nat) (h : p.2 < m.2) : zLtB m p = false := by
  unfold zLtB
  rw [decide_eq_false (by omega), decide_eq_false (by omega)]
  rfl

theorem zinsert_append (m : Raw × Nat) (z : ZSet) (h : ∀ p ∈ z, zLtB m p = false) :
    zinsert m z = z ++ [m] := by
  induction z with
  | nil => rfl
  | cons x xs ih =>
    have hx : zLtB m x = false := h x (by simp)
    simp only [zinsert, hx, Bool.false_eq_true, if_false, List.cons_append, List.cons.injEq,
      true_and]
    exact ih (fun p hp => h p (by simp [hp]))

theorem zadd_top (z : ZSet) (m : Raw) (s : Nat)
    (h : ∀ p ∈ z, p.1 ≠ m → p.2 < s) :
    zadd z m s = z.filter (fun p => !(p.1 == m)) ++ [(m, s)] := by
  unfold zadd
  apply zinsert_append
  intro p hp
  have hmem := List.mem_filter.mp hp
  have hne : p.1 ≠ m := by simpa using hmem.2
  exact zLtB_false_of_lt _ _ (h p hmem.1 hne)

theorem filter_ne_eq_self (z : ZSet) (m : Raw) (h : ∀ p ∈ z, p.1 ≠ m) :
    z.filter (fun p => !(p.1 == m)) = z := by
  apply List.filter_eq_self.mpr
  intro p hp
  simpa using h p hp

theorem drop_append_le {α : Type} (l₁ l₂ : List α) (n : Nat) (h : n ≤ l₁.length) :
    (l₁ ++ l₂).drop n = l₁.drop n ++ l₂ := by
  rw [List.drop_append_eq_append_drop, Nat.sub_eq_zero_of_le h, List.drop_zero]

/-- C1: the entry collection holds at most `MAX_ENTRIES` members right
after any insert against any prior state; the bound is produced by the
`zadd` + `zremrangebyrank` pair inside `add_entry` itself. -/
theorem insert_bound_le_max (st : BoardState) (e : Entry) (t : Nat) :
    (addEntry st e t).entries.length ≤ MAX_ENTRIES := by
  simp only [addEntry]
  rw [zremrange_trim, List.length_drop]
  omega

/-! ### Exact characterization of a run of inserts (C2) -/

theorem scoredOf_length (xs : List (Entry × Nat)) : (scoredOf xs).length = xs.length :=
  List.length_map _ _

theorem scoredOf_append (xs ys : List (Entry × Nat)) :
    scoredOf (xs ++ ys) = scoredOf xs ++ scoredOf ys :=
  List.map_append _ _ _

theorem addEntry_entries_step (st : BoardState) (hist : List (Entry × Nat)) (x : Entry × Nat)
    (hst : st.entries = (scoredOf hist).drop (hist.length - MAX_ENTRIES))
    (hts : ∀ p ∈ hist, p.2 < x.2)
    (hfresh : ∀ p ∈ hist, p.1 ≠ x.1) :
    (addEntry st x.1 x.2).entries
      = (scoredOf (hist ++ [x])).drop (hist.length + 1 - MAX_ENTRIES) := by
  have hsub : ∀ p ∈ st.entries, p ∈ scoredOf hist := by
    intro p hp; rw [hst] at hp; exact List.mem_of_mem_drop hp
  have hscore : ∀ p ∈ st.entries, p.1 ≠ Raw.valid x.1 → p.2 < x.2 := by
    intro p hp _
    obtain ⟨q, hq, rfl⟩ := List.mem_map.mp (hsub p hp)
    exact hts q hq
  have hne : ∀ p ∈ st.entries, p.1 ≠ Raw.valid x.1 := by
    intro p hp
    obtain ⟨q, hq, rfl⟩ := List.mem_map.mp (hsub p hp)
    simp only [ne_eq, Raw.valid.injEq]
    exact fun hcontra => hfresh q hq hcontra
  have hzadd : zadd st.entries (Raw.valid x.1) x.2
      = st.entries ++ [(Raw.valid x.1, x.2)] := by
    rw [zadd_top _ _ _ hscore, filter_ne_eq_self _ _ hne]
  simp only [addEntry]
  rw [hzadd, zremrange_trim, hst]
  rw [scoredOf_append]
  have hlen : ((scoredOf hist).drop (hist.length - MAX_ENTRIES)
      ++ [(Raw.valid x.1, x.2)]).length = min hist.length MAX_ENTRIES + 1 := by
    rw [List.length_append, List.length_drop, scoredOf_length]
    simp
    omega
  rw [hlen]
  show _ = (scoredOf hist ++ scoredOf [x]).drop (hist.length + 1 - MAX_ENTRIES)
  have hx1 : scoredOf [x] = [(Raw.valid x.1, x.2)] := rfl
  rw [hx1]
  by_cases hl : hist.length ≤ MAX_ENTRIES - 1
  · have h1 : hist.length - MAX_ENTRIES = 0 := by unfold MAX_ENTRIES at *; omega
    have h2 : min hist.length MAX_ENTRIES + 1 - MAX_ENTRIES = 0 := by
      unfold MAX_ENTRIES at *; omega
    have h3 : hist.length + 1 - MAX_ENTRIES = 0 := by unfold MAX_ENTRIES at *; omega
    rw [h1, h2, h3]
    simp
  · have h2 : min hist.length MAX_ENTRIES + 1 - MAX_ENTRIES = 1 := by
      unfold MAX_ENTRIES at *; omega
    rw [h2]
    have hlen2 : 1 ≤ ((scoredOf hist).drop (hist.length - MAX_ENTRIES)).length := by
      rw [List.length_drop, scoredOf_length]; unfold MAX_ENTRIES at *; omega
    rw [drop_append_le _ _ 1 hlen2, List.drop_drop]
    have hlen3 : hist.length + 1 - MAX_ENTRIES ≤ (scoredOf hist).length := by
      rw [scoredOf_length]; unfold MAX_ENTRIES at *; omega
    rw [drop_append_le _ _ _ hlen3]
    congr 2
    unfold MAX_ENTRIES at *
    omega

theorem runInserts_entries_aux (xs : List (Entry × Nat)) :
    ∀ (st : BoardState) (hist : List (Entry × Nat)),
      st.entries = (scoredOf hist).drop (hist.length - MAX_ENTRIES) →
      ((hist ++ xs).map Prod.snd).Pairwise (· < ·) →
      ((hist ++ xs).map Prod.fst).Pairwise (· ≠ ·) →
      (runInserts st xs).entries
        = (scoredOf (hist ++ xs)).drop ((hist ++ xs).length - MAX_ENTRIES) := by
  induction xs with
  | nil =>
    intro st hist hst _ _
    simpa using hst
  | cons x xs ih =>
    intro st hist hst hts hid
    have hts' : ∀ p ∈ hist, p.2 < x.2 := by
      rw [List.map_append, List.pairwise_append] at hts
      intro p hp
      exact hts.2.2 p.2 (List.mem_map_of_mem _ hp) x.2 (by simp)
    have hfresh : ∀ p ∈ hist, p.1 ≠ x.1 := by
      rw [List.map_append, List.pairwise_append] at hid
      intro p hp
      exact hid.2.2 p.1 (List.mem_map_of_mem _ hp) x.1 (by simp)
    have hstep := addEntry_entries_step st hist x hst hts' hfresh
    have hrun : runInserts st (x :: xs) = runInserts (addEntry st x.1 x.2) xs := rfl
    rw [hrun]
    have hrec := ih (addEntry st x.1 x.2) (hist ++ [x])
      (by simpa using hstep)
      (by simpa [List.append_assoc] using hts)
      (by simpa [List.append_assoc] using hid)
    simpa [List.append_assoc] using hrec

theorem deleteEntry_entries_subset (st : BoardState) (entryId : String) :
    ∀ p ∈ (deleteEntry st entryId).2.entries, p ∈ st.entries := by
  cases hf : findEntryRaw st.entries entryId with
  | none =>
    have h : deleteEntry st entryId = (.notFound, st) := by
      simp only [deleteEntry, hf]
    rw [h]
    exact fun p hp => hp
  | some raw =>
    cases hd : decodeRaw raw with
    | none =>
      have h : (deleteEntry st entryId).2.entries = zrem st.entries raw := by
        simp only [deleteEntry, hf, hd]
      rw [h]
      exact fun p hp => (List.mem_filter.mp hp).1
    | some e =>
      have h : (deleteEntry st entryId).2.entries = zrem st.entries raw := by
        simp only [deleteEntry, hf, hd]
      rw [h]
      exact fun p hp => (List.mem_filter.mp hp).1

/-- C2 (amended): with entry values pairwise distinct (entry ids are
globally unique by construction) and insertion timestamps strictly
increasing (`time.time()` is non-decreasing across sequential inserts,
and the counterexample shows an exact tie voids the characterization), a
run of inserts into a fresh board retains exactly the `MAX_ENTRIES` most
recent entries, in creation order; and an explicit deletion only ever
removes members — an entry once evicted by the trim never returns when a
deletion frees capacity, which is why no most-recent characterization
survives interleaved deletions. -/
theorem runInserts_retains_most_recent (xs : List (Entry × Nat))
    (hts : (xs.map Prod.snd).Pairwise (· < ·))
    (hid : (xs.map Prod.fst).Pairwise (· ≠ ·)) :
    (runInserts emptyBoard xs).entries = (scoredOf xs).drop (xs.length - MAX_ENTRIES) ∧
    ∀ (st : BoardState) (entryId : String),
      ∀ p ∈ (deleteEntry st entryId).2.entries, p ∈ st.entries :=
  ⟨runInserts_entries_aux xs emptyBoard []
      (by simp [emptyBoard, scoredOf]) (by simpa using hts) (by simpa using hid),
    fun st entryId => deleteEntry_entries_subset st entryId⟩

theorem runInserts_retains_most_recent_witness :
    (([(textEntry "a", 1), (textEntry "b", 2)].map Prod.snd).Pairwise (· < ·)
      ∧ ([(textEntry "a", 1), (textEntry "b", 2)].map Prod.fst).Pairwise (· ≠ ·))
    ∧ ((runInserts emptyBoard [(textEntry "a", 1), (textEntry "b", 2)]).entries
        = (scoredOf [(textEntry "a", 1), (textEntry "b", 2)]).drop
            ([(textEntry "a", 1), (textEntry "b", 2)].length - MAX_ENTRIES)
      ∧ ∀ (st : BoardState) (entryId : String),
          ∀ p ∈ (deleteEntry st entryId).2.entries, p ∈ st.entries) :=
  ⟨⟨by decide, by decide⟩,
    runInserts_retains_most_recent _ (by decide) (by decide)⟩

/-- Filler entries used by the tie-breaking counterexample. -/
def tieFillers : List (Entry × Nat) :=
  (List.range 19).map (fun i => (textEntry ("f" ++ toString i), i + 2))

/-- Insert the entry with id `"b"` at time 1, nineteen fillers at times
2..20 (a full board), then the entry with id `"a"` at time 1 again. -/
def tieInserts : List (Entry × Nat) :=
  (textEntry "b", 1) :: (tieFillers ++ [(textEntry "a", 1)])

/-- Twenty-one distinct entries inserted at times 1..21; the trim evicts
`d0` at the twenty-first insert. -/
def delInserts : List (Entry × Nat) :=
  (List.range 21).map (fun i => (textEntry ("d" ++ toString i), i + 1))

set_option maxRecDepth 10000 in
/-- C2 (counterexample): two concrete runs against the code.
(1) Ties are not broken by insertion/arrival order: with the board at
capacity, entry `"b"` inserted first at time 1 and entry `"a"` (whose
serialization is lexicographically smaller) inserted last, also at
time 1, the claim predicts the earlier-arrived `"b"` is evicted and
`"a"` retained; the code evicts `"a"` itself and keeps `"b"`, because
Redis breaks score ties by the member string.
(2) With explicit deletions the retained set is not the `N` most recent
among inserted-minus-deleted: inserting `d0..d20` (times 1..21, `d0`
evicted by the trim) and then deleting `d20` leaves 19 entries without
`d0`, while the claim's set — the 20 most recent among the never-deleted
`d0..d19` — has 20 members and contains `d0`: a trim eviction is
permanent even when a deletion frees capacity. -/
theorem tie_break_counterexample :
    ((Raw.valid (textEntry "a"), 1) ∉ (runInserts emptyBoard tieInserts).entries ∧
      (Raw.valid (textEntry "b"), 1) ∈ (runInserts emptyBoard tieInserts).entries) ∧
    ((deleteEntry (runInserts emptyBoard delInserts) "d20").2.entries.length = 19 ∧
      (Raw.valid (textEntry "d0"), 1)
        ∉ (deleteEntry (runInserts emptyBoard delInserts) "d20").2.entries) := by
  refine ⟨⟨by decide, by decide⟩, by decide, by decide⟩

/-! ### Trimmed image files (C3) -/

/-- An image entry whose original bytes live at `data/images/old.png`. -/
def imgEntry0 : Entry :=
  { id := "i0", type := .image, image_path := some "images/old.png",
    mime := some "image/png", file_size := some 3, created_at := "t0" }

/-- A board filled to capacity whose oldest member is `imgEntry0` and
whose disk holds that entry's original file. -/
def bugBoard : BoardState :=
  runInserts { entries := [], authKey := none, disk := ["old.png"] }
    ((imgEntry0, 1) :: (List.range 19).map (fun i => (textEntry ("g" ++ toString i), i + 2)))

set_option maxRecDepth 10000 in
/-- C3 (code-bug evidence): the board is at capacity (20 members) with the
image entry as its oldest member and its file on disk; inserting one more
entry evicts the image member from the sorted set, yet the insert leaves
its file on disk untouched.  The pre-transaction
`zrange(key, 0, -(MAX_ENTRIES + 1))` of `add_entry` is empty whenever the
board holds at most `MAX_ENTRIES` members, so it never contains the member
the subsequent trim removes, contradicting the function's own docstring
("Deletes orphaned image files for trimmed entries"). -/
theorem trim_leaves_image_file_on_disk :
    bugBoard.entries.length = MAX_ENTRIES ∧
    (Raw.valid imgEntry0, 1) ∉ (addEntry bugBoard (textEntry "z") 21).entries ∧
    (addEntry bugBoard (textEntry "z") 21).disk = ["old.png"] := by
  refine ⟨by decide, by decide, by decide⟩

/-! ### Listing order (C4) -/

theorem filterMap_decode_map_fst (l : ZSet) :
    (l.map (·.1)).filterMap decodeRaw
      = (l.filterMap (fun p => (decodeRaw p.1).map (fun e => (e, p.2)))).map Prod.fst := by
  induction l with
  | nil => rfl
  | cons x xs ih =>
    cases hx : decodeRaw x.1 with
    | none => simp [List.filterMap_cons, hx, ih]
    | some e => simp [List.filterMap_cons, hx, ih]

theorem getEntries_eq_listScored (z : ZSet) :
    getEntries z = (listScored z).map Prod.fst := by
  unfold getEntries listScored
  rw [zrevrange_full]
  exact filterMap_decode_map_fst _

theorem listScored_pairwise_of (z : ZSet) (R : Nat → Nat → Prop)
    (h : z.reverse.Pairwise (fun a b => R a.2 b.2)) :
    (listScored z).Pairwise (fun a b => R a.2 b.2) := by
  unfold listScored
  apply h.filterMap
  intro a b hab c hc d hd
  rw [Option.mem_def] at hc hd
  obtain ⟨ea, -, hc2⟩ := Option.map_eq_some'.mp hc
  obtain ⟨eb, -, hd2⟩ := Option.map_eq_some'.mp hd
  rw [← hc2, ← hd2]
  exact hab

/-- C4 (counterexample): the claim says the listing is strictly ordered
newest-first by creation time.  Inserting two entries at the same
timestamp (reachable: `time.time()` can return the same value twice)
leaves a sorted-set state whose listing carries two equal creation
scores, so no strict newest-first order exists; the tied entries are
ordered by their serialized members instead. -/
theorem listing_tie_counterexample :
    (runInserts emptyBoard [(textEntry "b", 1), (textEntry "a", 1)]).entries
      = [(Raw.valid (textEntry "a"), 1), (Raw.valid (textEntry "b"), 1)] ∧
    ¬ (listScored (runInserts emptyBoard
        [(textEntry "b", 1), (textEntry "a", 1)]).entries).Pairwise
        (fun a b => b.2 < a.2) := by
  refine ⟨by decide, by decide⟩

/-- C4 (amended): under the sorted-set representation invariant,
`get_entries` returns exactly the decodable members, each listed with its
creation score, in (non-strictly) newest-first creation order; the order
is strictly newest-first whenever the creation scores are pairwise
distinct — with ties the order among the tied entries follows the
serialized members, not creation time alone — and no member with a
decodable record is missing. -/
theorem getEntries_newest_first (z : ZSet) (hs : ZSorted z) :
    getEntries z = (listScored z).map Prod.fst ∧
    (listScored z).Pairwise (fun a b => b.2 ≤ a.2) ∧
    ((z.map Prod.snd).Pairwise (· ≠ ·)
      → (listScored z).Pairwise (fun a b => b.2 < a.2)) ∧
    ∀ p ∈ z, ∀ e, decodeRaw p.1 = some e → (e, p.2) ∈ listScored z := by
  refine ⟨getEntries_eq_listScored z, ?_, ?_, ?_⟩
  · have hle : z.Pairwise (fun a b : Raw × Nat => a.2 ≤ b.2) :=
      hs.imp (fun hab => hab.elim le_of_lt (fun h => le_of_eq h.1))
    exact listScored_pairwise_of z (fun a b => b ≤ a) (List.pairwise_reverse.mpr hle)
  · intro hd
    have hd' : z.Pairwise (fun a b => a.2 ≠ b.2) := (List.pairwise_map).mp hd
    have hlt : z.Pairwise (fun a b : Raw × Nat => a.2 < b.2) := by
      have hand := hs.and hd'
      exact hand.imp (fun hab => by
        rcases hab with ⟨h1 | h1, h2⟩
        · exact h1
        · exact absurd h1.1 h2)
    exact listScored_pairwise_of z (fun a b => b < a) (List.pairwise_reverse.mpr hlt)
  · intro p hp e he
    unfold listScored
    exact List.mem_filterMap.mpr ⟨p, List.mem_reverse.mpr hp, by simp [he]⟩

theorem getEntries_newest_first_witness :
    ZSorted [(Raw.valid (textEntry "a"), 1), (Raw.valid (textEntry "b"), 2)] ∧
    (getEntries [(Raw.valid (textEntry "a"), 1), (Raw.valid (textEntry "b"), 2)]
        = (listScored [(Raw.valid (textEntry "a"), 1), (Raw.valid (textEntry "b"), 2)]).map
            Prod.fst ∧
      (listScored [(Raw.valid (textEntry "a"), 1),
          (Raw.valid (textEntry "b"), 2)]).Pairwise (fun a b => b.2 ≤ a.2) ∧
      ((([(Raw.valid (textEntry "a"), 1), (Raw.valid (textEntry "b"), 2)] : ZSet).map
          Prod.snd).Pairwise (· ≠ ·)
        → (listScored [(Raw.valid (textEntry "a"), 1),
            (Raw.valid (textEntry "b"), 2)]).Pairwise (fun a b => b.2 < a.2)) ∧
      ∀ p ∈ ([(Raw.valid (textEntry "a"), 1), (Raw.valid (textEntry "b"), 2)] : ZSet),
        ∀ e, decodeRaw p.1 = some e
          → (e, p.2) ∈ listScored [(Raw.valid (textEntry "a"), 1),
              (Raw.valid (textEntry "b"), 2)]) :=
  ⟨by unfold ZSorted; decide,
    getEntries_newest_first _ (by unfold ZSorted; decide)⟩

/-! ### Corrupt records are skipped (C5) -/

theorem filterMap_decode_filter_decodable (l : ZSet) :
    ((l.filter (fun p => (decodeRaw p.1).isSome)).map (·.1)).filterMap decodeRaw
      = (l.map (·.1)).filterMap decodeRaw := by
  induction l with
  | nil => rfl
  | cons x xs ih =>
    cases hx : decodeRaw x.1 with
    | none => simp [List.filter_cons, hx, List.filterMap_cons, ih]
    | some e => simp [List.filter_cons, hx, List.filterMap_cons, ih]

theorem find_skip_garbage (l : List Raw) (entryId : String) :
    (l.filter (fun r => !(isGarbage r))).find? (fun raw => findIdMatch raw entryId)
      = l.find? (fun raw => findIdMatch raw entryId) := by
  induction l with
  | nil => rfl
  | cons x xs ih =>
    cases x with
    | garbage s =>
      have hfil : ((Raw.garbage s) :: xs).filter (fun r => !(isGarbage r))
          = xs.filter (fun r => !(isGarbage r)) := by
        simp [List.filter_cons, isGarbage]
      rw [hfil, List.find?_cons]
      simp only [findIdMatch]
      exact ih
    | valid e =>
      have hfil : ((Raw.valid e) :: xs).filter (fun r => !(isGarbage r))
          = (Raw.valid e) :: xs.filter (fun r => !(isGarbage r)) := by
        simp [List.filter_cons, isGarbage]
      rw [hfil, List.find?_cons, List.find?_cons]
      cases hp : findIdMatch (Raw.valid e) entryId <;> simp [hp, ih]
    | badDict i ip s =>
      have hfil : ((Raw.badDict i ip s) :: xs).filter (fun r => !(isGarbage r))
          = (Raw.badDict i ip s) :: xs.filter (fun r => !(isGarbage r)) := by
        simp [List.filter_cons, isGarbage]
      rw [hfil, List.find?_cons, List.find?_cons]
      cases hp : findIdMatch (Raw.badDict i ip s) entryId <;> simp [hp, ih]

theorem map_fst_filter_garbage (l : ZSet) :
    (l.filter (fun p => !(isGarbage p.1))).map (·.1)
      = (l.map (·.1)).filter (fun r => !(isGarbage r)) := by
  induction l with
  | nil => rfl
  | cons x xs ih => cases hx : isGarbage x.1 <;> simp [List.filter_cons, hx, ih]

theorem mem_getEntries_of_mem (z : ZSet) (p : Raw × Nat) (hp : p ∈ z) (e : Entry)
    (he : decodeRaw p.1 = some e) : e ∈ getEntries z := by
  unfold getEntries
  rw [zrevrange_full]
  exact List.mem_filterMap.mpr ⟨p.1, List.mem_map_of_mem _ (List.mem_reverse.mpr hp), he⟩

/-- C5 (counterexample): the claim says `find` skips each corrupt record
and still returns every valid entry.  With a json-loadable corrupt member
whose dict carries the searched id ranked before a valid entry with that
id, `find_entry_raw` matches on `data.get("id")` alone and returns the
corrupt record raw — it neither skips it nor returns the valid entry. -/
theorem find_returns_corrupt_counterexample :
    findEntryRaw [(Raw.badDict (some "x") none "junk", 1),
        (Raw.valid (textEntry "x"), 2)] "x"
      = some (Raw.badDict (some "x") none "junk") := by decide

/-- C5 (amended): `get_entries` fully decodes inside a per-record `try`,
so listing a collection with corrupt members equals listing the
collection with them removed, and every decodable member is returned.
`find_entry_raw` swallows only `json.loads` failures: lookups agree with
the collection stripped of non-json-loadable members, while json-loadable
records that fail Entry validation still participate, matched by their
dict id. -/
theorem corrupt_records_skipped (z : ZSet) (entryId : String) :
    getEntries (z.filter (fun p => (decodeRaw p.1).isSome)) = getEntries z ∧
    (∀ p ∈ z, ∀ e, decodeRaw p.1 = some e → e ∈ getEntries z) ∧
    findEntryRaw (z.filter (fun p => !(isGarbage p.1))) entryId
      = findEntryRaw z entryId := by
  refine ⟨?_, fun p hp e he => mem_getEntries_of_mem z p hp e he, ?_⟩
  · unfold getEntries
    rw [zrevrange_full, zrevrange_full, ← List.filter_reverse]
    exact filterMap_decode_filter_decodable _
  · unfold findEntryRaw
    rw [zrange_full, zrange_full, map_fst_filter_garbage]
    exact find_skip_garbage _ _

theorem corrupt_records_skipped_witness :
    (getEntries (([(Raw.garbage "junk", 1), (Raw.badDict (some "y") none "half", 2),
          (Raw.valid (textEntry "a"), 3)] : ZSet).filter
        (fun p => (decodeRaw p.1).isSome))
      = getEntries [(Raw.garbage "junk", 1), (Raw.badDict (some "y") none "half", 2),
          (Raw.valid (textEntry "a"), 3)]) ∧
    (∀ p ∈ ([(Raw.garbage "junk", 1), (Raw.badDict (some "y") none "half", 2),
          (Raw.valid (textEntry "a"), 3)] : ZSet),
      ∀ e, decodeRaw p.1 = some e
        → e ∈ getEntries [(Raw.garbage "junk", 1), (Raw.badDict (some "y") none "half", 2),
            (Raw.valid (textEntry "a"), 3)]) ∧
    (findEntryRaw (([(Raw.garbage "junk", 1), (Raw.badDict (some "y") none "half", 2),
          (Raw.valid (textEntry "a"), 3)] : ZSet).filter
        (fun p => !(isGarbage p.1))) "a"
      = findEntryRaw [(Raw.garbage "junk", 1), (Raw.badDict (some "y") none "half", 2),
          (Raw.valid (textEntry "a"), 3)] "a") :=
  corrupt_records_skipped _ "a"

/-! ### Access gating (C6) -/

/-- C6: `require_auth` lets every request through when no key is stored;
with a stored key (nonempty, as every key the system installs is a
16-character `secrets.token_urlsafe` value) it rejects exactly the
requests whose provided key differs, and accepts an exact match. -/
theorem requireAuth_gating (stored provided : Option String) :
    (stored = none → requireAuth stored provided = true) ∧
    (∀ k, stored = some k → k ≠ "" → provided ≠ some k
      → requireAuth stored provided = false) ∧
    (∀ k, stored = some k → provided = some k → requireAuth stored provided = true) := by
  refine ⟨?_, ?_, ?_⟩
  · intro h; rw [h]; rfl
  · intro k hk hne hp
    subst hk
    simp only [requireAuth]
    rw [if_neg (by simpa using hne)]
    exact beq_eq_false_iff_ne.mpr hp
  · intro k hk hp
    subst hk; subst hp
    simp only [requireAuth]
    by_cases hke : k = ""
    · rw [if_pos (by simpa using hke)]
    · rw [if_neg (by simpa using hke)]
      simp

theorem requireAuth_gating_witness :
    (((some "s" : Option String) = none → requireAuth (some "s") (some "x") = true) ∧
      (∀ k, (some "s" : Option String) = some k → k ≠ "" → (some "x" : Option String) ≠ some k
        → requireAuth (some "s") (some "x") = false) ∧
      (∀ k, (some "s" : Option String) = some k → (some "x" : Option String) = some k
        → requireAuth (some "s") (some "x") = true)) ∧
    requireAuth (some "s") (some "x") = false :=
  ⟨requireAuth_gating (some "s") (some "x"),
    (requireAuth_gating (some "s") (some "x")).2.1 "s" rfl (by decide) (by decide)⟩

/-! ### Key issuance (C7) -/

/-- C7: `generate_board_key` succeeds exactly when the board has no key or
the provided key matches the stored one (stored keys are nonempty
`secrets.token_urlsafe` values, as is the freshly generated key); on
success the new key is installed, leaving entries and disk untouched, and
a distinct old key then fails `require_auth`; on failure nothing
changes. -/
theorem generateBoardKey_spec (st : BoardState) (provided : Option String) (newKey : String)
    (hk : ∀ k, st.authKey = some k → k ≠ "") (hnew : newKey ≠ "") :
    ((generateBoardKey st provided newKey).1 = some newKey ↔
        (st.authKey = none ∨ provided = st.authKey)) ∧
    ((st.authKey = none ∨ provided = st.authKey) →
        (generateBoardKey st provided newKey).2.authKey = some newKey ∧
        (generateBoardKey st provided newKey).2.entries = st.entries ∧
        (generateBoardKey st provided newKey).2.disk = st.disk) ∧
    (¬(st.authKey = none ∨ provided = st.authKey) →
        (generateBoardKey st provided newKey).1 = none ∧
        (generateBoardKey st provided newKey).2 = st) ∧
    (∀ old, st.authKey = some old → newKey ≠ old →
        (st.authKey = none ∨ provided = st.authKey) →
        requireAuth (generateBoardKey st provided newKey).2.authKey (some old) = false) := by
  have hreq : ∀ old, newKey ≠ old → requireAuth (some newKey) (some old) = false := by
    intro old hold
    simp only [requireAuth]
    rw [if_neg (by simpa using hnew)]
    have hne : (some old : Option String) ≠ some newKey := by
      intro hcontra
      exact hold (Option.some.inj hcontra).symm
    exact beq_eq_false_iff_ne.mpr hne
  cases hst : st.authKey with
  | none =>
    refine ⟨by simp [generateBoardKey, hst], ?_, ?_, ?_⟩
    · intro _
      exact ⟨by simp [generateBoardKey, hst], by simp [generateBoardKey, hst],
        by simp [generateBoardKey, hst]⟩
    · intro hcontra; exact absurd (Or.inl rfl) hcontra
    · intro old hold
      exact absurd hold (by simp)
  | some k =>
    have hk2 : (k == "") = false := beq_eq_false_iff_ne.mpr (hk k hst)
    by_cases hp : provided = some k
    · refine ⟨by simp [generateBoardKey, hst, hk2, hp], ?_, ?_, ?_⟩
      · intro _
        exact ⟨by simp [generateBoardKey, hst, hk2, hp],
          by simp [generateBoardKey, hst, hk2, hp],
          by simp [generateBoardKey, hst, hk2, hp]⟩
      · intro hcontra; exact absurd (Or.inr hp) hcontra
      · intro old hold hnk _
        have hauth : (generateBoardKey st provided newKey).2.authKey = some newKey := by
          simp [generateBoardKey, hst, hk2, hp]
        rw [hauth]
        exact hreq old hnk
    · have hp2 : (provided == some k) = false := beq_eq_false_iff_ne.mpr hp
      refine ⟨?_, ?_, ?_, ?_⟩
      · simp [generateBoardKey, hst, hk2, hp2, hp]
      · intro hcase
        rcases hcase with h | h
        · exact absurd h (by simp)
        · exact absurd h hp
      · intro _
        exact ⟨by simp [generateBoardKey, hst, hk2, hp2],
          by simp [generateBoardKey, hst, hk2, hp2]⟩
      · intro old hold hnk hcase
        rcases hcase with h | h
        · exact absurd h (by simp)
        · exact absurd h hp

theorem generateBoardKey_spec_witness :
    ((∀ k, (⟨[], some "k1", []⟩ : BoardState).authKey = some k → k ≠ "") ∧ "k2" ≠ "") ∧
    (generateBoardKey ⟨[], some "k1", []⟩ (some "k1") "k2").1 = some "k2" ∧
    requireAuth (generateBoardKey ⟨[], some "k1", []⟩ (some "k1") "k2").2.authKey
      (some "k1") = false :=
  ⟨⟨by intro k hkk; cases hkk; decide, by decide⟩,
    (generateBoardKey_spec ⟨[], some "k1", []⟩ (some "k1") "k2"
      (by intro k hkk; cases hkk; decide) (by decide)).1.mpr (Or.inr rfl),
    (generateBoardKey_spec ⟨[], some "k1", []⟩ (some "k1") "k2"
      (by intro k hkk; cases hkk; decide) (by decide)).2.2.2 "k1" rfl (by decide)
      (Or.inr rfl)⟩

/-! ### Startup reconciliation (C8) -/

theorem imagePathMatch_eq_some (raw : Raw) (p : String) :
    ((match dictImagePath raw with
      | some q => if q == "" then none else some q
      | none => none) = some p)
      ↔ dictImagePath raw = some p ∧ p ≠ "" := by
  cases hip : dictImagePath raw with
  | none => simp
  | some q =>
    by_cases hq : q = ""
    · subst hq
      simp
      exact fun h => h.symm
    · simp [hq]
      intro h
      subst h
      exact hq

theorem mem_getEntries_iff (z : ZSet) (e : Entry) :
    e ∈ getEntries z ↔ ∃ q ∈ z, decodeRaw q.1 = some e := by
  unfold getEntries
  rw [zrevrange_full, List.mem_filterMap]
  constructor
  · rintro ⟨r, hr, hdec⟩
    obtain ⟨q, hq, rfl⟩ := List.mem_map.mp hr
    exact ⟨q, List.mem_reverse.mp hq, hdec⟩
  · rintro ⟨q, hq, hdec⟩
    exact ⟨q.1, List.mem_map_of_mem _ (List.mem_reverse.mpr hq), hdec⟩

/-- C8 (counterexample): the claim says reconciliation deletes exactly
the files not referenced by any live entry.  A corrupt-but-json-loadable
record whose dict carries a truthy `image_path` protects its file: this
board lists no live entry at all, yet reconciliation keeps `ghost.png`
(the claim mandates deleting it). -/
theorem cleanup_corrupt_counterexample :
    getEntries [(Raw.badDict none (some "images/ghost.png") "junk", 1)] = [] ∧
    cleanupOrphanedImages ["ghost.png"]
        (referencedPaths [[(Raw.badDict none (some "images/ghost.png") "junk", 1)]])
      = ["ghost.png"] := by
  refine ⟨by decide, by decide⟩

/-- C8 (amended): after startup reconciliation a file of `data/images`
survives exactly when its locator is referenced; the referenced locators
are exactly the truthy dict-level `image_path` values of the
json-loadable stored records across all boards — records failing Entry
validation included, so files referenced only by such corrupt records are
kept — in particular every live entry's truthy image path is referenced;
and a second reconciliation against the same references deletes nothing
further. -/
theorem cleanup_orphans_spec (disk : List String) (boards : List ZSet) :
    (∀ name, name ∈ cleanupOrphanedImages disk (referencedPaths boards)
      ↔ (name ∈ disk ∧ ("images/" ++ name) ∈ referencedPaths boards)) ∧
    (∀ p, p ∈ referencedPaths boards
      ↔ ∃ z ∈ boards, ∃ q ∈ z, dictImagePath q.1 = some p ∧ p ≠ "") ∧
    (∀ z ∈ boards, ∀ e ∈ getEntries z, ∀ p, e.image_path = some p → p ≠ ""
      → p ∈ referencedPaths boards) ∧
    cleanupOrphanedImages (cleanupOrphanedImages disk (referencedPaths boards))
        (referencedPaths boards)
      = cleanupOrphanedImages disk (referencedPaths boards) := by
  have hchar : ∀ p, p ∈ referencedPaths boards
      ↔ ∃ z ∈ boards, ∃ q ∈ z, dictImagePath q.1 = some p ∧ p ≠ "" := by
    intro p
    unfold referencedPaths
    rw [List.mem_flatMap]
    constructor
    · rintro ⟨z, hz, hmem⟩
      rw [List.mem_filterMap] at hmem
      obtain ⟨r, hr, hdec⟩ := hmem
      rw [zrange_full] at hr
      obtain ⟨q, hq, rfl⟩ := List.mem_map.mp hr
      obtain ⟨hip, hpne⟩ := (imagePathMatch_eq_some _ _).mp hdec
      exact ⟨z, hz, q, hq, hip, hpne⟩
    · rintro ⟨z, hz, q, hq, hip, hpne⟩
      refine ⟨z, hz, ?_⟩
      rw [List.mem_filterMap]
      refine ⟨q.1, ?_, ?_⟩
      · rw [zrange_full]; exact List.mem_map_of_mem _ hq
      · exact (imagePathMatch_eq_some _ _).mpr ⟨hip, hpne⟩
  refine ⟨?_, hchar, ?_, ?_⟩
  · intro name
    unfold cleanupOrphanedImages
    rw [List.mem_filter]
    constructor
    · rintro ⟨h1, h2⟩; exact ⟨h1, List.elem_iff.mp h2⟩
    · rintro ⟨h1, h2⟩; exact ⟨h1, List.elem_iff.mpr h2⟩
  · intro z hz e hmem p hip hpne
    obtain ⟨q, hq, hdec⟩ := (mem_getEntries_iff z e).mp hmem
    have hdq : dictImagePath q.1 = some p := by
      cases q1 : q.1 with
      | valid e2 =>
        rw [q1] at hdec
        simp only [decodeRaw, Option.some.injEq] at hdec
        subst hdec
        simpa [dictImagePath] using hip
      | badDict i ip s2 =>
        rw [q1] at hdec
        simp [decodeRaw] at hdec
      | garbage s2 =>
        rw [q1] at hdec
        simp [decodeRaw] at hdec
    exact (hchar p).mpr ⟨z, hz, q, hq, hdq, hpne⟩
  · unfold cleanupOrphanedImages
    rw [List.filter_filter]
    simp

theorem cleanup_orphans_spec_witness :
    (∀ name, name ∈ cleanupOrphanedImages ["old.png", "orphan.png"]
        (referencedPaths [[(Raw.valid imgEntry0, 1)]])
      ↔ (name ∈ ["old.png", "orphan.png"]
          ∧ ("images/" ++ name) ∈ referencedPaths [[(Raw.valid imgEntry0, 1)]])) ∧
    (∀ p, p ∈ referencedPaths [[(Raw.valid imgEntry0, 1)]]
      ↔ ∃ z ∈ [[(Raw.valid imgEntry0, 1)]], ∃ q ∈ z,
          dictImagePath q.1 = some p ∧ p ≠ "") ∧
    (∀ z ∈ [[(Raw.valid imgEntry0, 1)]], ∀ e ∈ getEntries z, ∀ p,
      e.image_path = some p → p ≠ ""
      → p ∈ referencedPaths [[(Raw.valid imgEntry0, 1)]]) ∧
    cleanupOrphanedImages (cleanupOrphanedImages ["old.png", "orphan.png"]
        (referencedPaths [[(Raw.valid imgEntry0, 1)]]))
        (referencedPaths [[(Raw.valid imgEntry0, 1)]])
      = cleanupOrphanedImages ["old.png", "orphan.png"]
          (referencedPaths [[(Raw.valid imgEntry0, 1)]]) :=
  cleanup_orphans_spec ["old.png", "orphan.png"] [[(Raw.valid imgEntry0, 1)]]

/-! ### Deletion frame conditions (C9) -/

/-- C9 (counterexample): the claim says that when no entry with the id
exists, `remove` reports not-found and leaves the collection, key and
assets completely unchanged with no event.  On a board whose only member
is a corrupt-but-json-loadable record whose dict carries the searched id
— so no entry with that id exists (the listing is empty) — the source
matches the record by dict id, `zrem`s it, and then raises from
`Entry(**json.loads(raw))` outside any `try`: the route answers 500 and
the collection has changed. -/
theorem delete_corrupt_counterexample :
    getEntries [(Raw.badDict (some "x") none "junk", 1)] = [] ∧
    deleteEntryRoute ⟨[(Raw.badDict (some "x") none "junk", 1)], none, []⟩ "x" none
      = (500, ⟨[], none, []⟩, []) := by
  refine ⟨by decide, by decide⟩

/-- C9 (amended): when the auth gate passes and no member's json dict
carries the id, the delete route answers 404 with state untouched
(entries, key, disk) and publishes nothing; when the first such member is
a valid entry, the route answers 204, publishes exactly one removal
event, removes exactly that member (the other members and the key are
preserved), and only that entry's image file can leave the disk; when the
first such member fails Entry validation, the route propagates the
validation error (500) after removing just that member, publishing
nothing and touching neither the key nor any file. -/
theorem deleteEntry_frame (st : BoardState) (entryId : String) (provided : Option String)
    (hauth : requireAuth st.authKey provided = true) :
    (findEntryRaw st.entries entryId = none →
        deleteEntryRoute st entryId provided = (404, st, [])) ∧
    (∀ raw e, findEntryRaw st.entries entryId = some raw → decodeRaw raw = some e →
        e.id = entryId ∧
        deleteEntryRoute st entryId provided
          = (204, (deleteEntry st entryId).2, [("delete_entry", entryId)]) ∧
        (deleteEntry st entryId).2.authKey = st.authKey ∧
        (∀ p ∈ st.entries, p.1 ≠ raw → p ∈ (deleteEntry st entryId).2.entries) ∧
        (∀ p ∈ (deleteEntry st entryId).2.entries, p ∈ st.entries) ∧
        (∀ p ∈ (deleteEntry st entryId).2.entries, p.1 ≠ raw) ∧
        (∀ f ∈ st.disk, (∀ q, e.image_path = some q → "images/" ++ f ≠ q)
          → f ∈ (deleteEntry st entryId).2.disk) ∧
        (∀ f ∈ (deleteEntry st entryId).2.disk, f ∈ st.disk)) ∧
    (∀ raw, findEntryRaw st.entries entryId = some raw → decodeRaw raw = none →
        deleteEntryRoute st entryId provided
          = (500, ⟨zrem st.entries raw, st.authKey, st.disk⟩, []) ∧
        (∀ p ∈ st.entries, p.1 ≠ raw → p ∈ zrem st.entries raw) ∧
        (∀ p ∈ zrem st.entries raw, p ∈ st.entries)) := by
  refine ⟨?_, ?_, ?_⟩
  · intro hf
    simp [deleteEntryRoute, hauth, deleteEntry, hf]
  · intro raw e hf hd
    have hpred := List.find?_some (by rw [findEntryRaw] at hf; exact hf)
    have hid : e.id = entryId := by
      cases raw with
      | valid e2 =>
        simp only [decodeRaw, Option.some.injEq] at hd
        subst hd
        simpa [findIdMatch] using hpred
      | badDict i ip s2 => simp [decodeRaw] at hd
      | garbage s2 => simp [decodeRaw] at hd
    have hDel : deleteEntry st entryId
        = (.deleted e, ⟨zrem st.entries raw, st.authKey,
            (match e.image_path with
              | some p => if p == "" then st.disk else unlinkPath st.disk p
              | none => st.disk)⟩) := by
      simp only [deleteEntry, hf, hd]
    refine ⟨hid, ?_, ?_, ?_, ?_, ?_, ?_, ?_⟩
    · simp [deleteEntryRoute, hauth, hDel]
    · rw [hDel]
    · intro p hp hne
      rw [hDel]
      simp only [zrem, List.mem_filter]
      exact ⟨hp, by simpa using hne⟩
    · intro p hp
      rw [hDel] at hp
      simp only [zrem, List.mem_filter] at hp
      exact hp.1
    · intro p hp
      rw [hDel] at hp
      simp only [zrem, List.mem_filter] at hp
      simpa using hp.2
    · intro f hfd hq
      have hdisk : (deleteEntry st entryId).2.disk
          = (match e.image_path with
            | some p => if p == "" then st.disk else unlinkPath st.disk p
            | none => st.disk) := by rw [hDel]
      cases hip : e.image_path with
      | none =>
        simp only [hip] at hdisk
        rw [hdisk]
        exact hfd
      | some q =>
        simp only [hip] at hdisk
        by_cases hqe : q = ""
        · rw [if_pos (by simpa using hqe)] at hdisk
          rw [hdisk]
          exact hfd
        · rw [if_neg (by simpa using hqe)] at hdisk
          rw [hdisk]
          simp only [unlinkPath]
          exact List.mem_filter.mpr ⟨hfd, by simpa using hq q hip⟩
    · intro f hfd
      have hdisk : (deleteEntry st entryId).2.disk
          = (match e.image_path with
            | some p => if p == "" then st.disk else unlinkPath st.disk p
            | none => st.disk) := by rw [hDel]
      cases hip : e.image_path with
      | none =>
        simp only [hip] at hdisk
        rw [hdisk] at hfd
        exact hfd
      | some q =>
        simp only [hip] at hdisk
        by_cases hqe : q = ""
        · rw [if_pos (by simpa using hqe)] at hdisk
          rw [hdisk] at hfd
          exact hfd
        · rw [if_neg (by simpa using hqe)] at hdisk
          rw [hdisk] at hfd
          simp only [unlinkPath] at hfd
          exact (List.mem_filter.mp hfd).1
  · intro raw hf hd
    have hDel : deleteEntry st entryId
        = (.raised, ⟨zrem st.entries raw, st.authKey, st.disk⟩) := by
      simp only [deleteEntry, hf, hd]
    refine ⟨by simp [deleteEntryRoute, hauth, hDel], ?_, ?_⟩
    · intro p hp hne
      simp only [zrem, List.mem_filter]
      exact ⟨hp, by simpa using hne⟩
    · intro p hp
      exact (List.mem_filter.mp hp).1

theorem deleteEntry_frame_witness :
    requireAuth (⟨[(Raw.valid (textEntry "a"), 1)], none, []⟩ : BoardState).authKey none
        = true ∧
    deleteEntryRoute ⟨[(Raw.valid (textEntry "a"), 1)], none, []⟩ "missing" none
      = (404, ⟨[(Raw.valid (textEntry "a"), 1)], none, []⟩, []) :=
  ⟨by decide,
    (deleteEntry_frame ⟨[(Raw.valid (textEntry "a"), 1)], none, []⟩ "missing" none
      (by decide)).1 (by decide)⟩

/-! ### Duplicate inserts (C10) -/

theorem addEntry_entries (st : BoardState) (e : Entry) (t : Nat) :
    (addEntry st e t).entries
      = zremrangebyrank (zadd st.entries (Raw.valid e) t) 0 (-((MAX_ENTRIES : Int) + 1)) :=
  rfl

theorem decode_beq (r : Raw) (e : Entry) :
    (decodeRaw r == some e) = (r == Raw.valid e) := by
  cases r with
  | badDict i ip s => simp [decodeRaw]
  | garbage s => simp [decodeRaw]
  | valid e2 =>
    by_cases he : e2 = e
    · subst he; simp [decodeRaw]
    · simp [decodeRaw, he]

theorem count_filterMap_decode (l : List Raw) (e : Entry) :
    (l.filterMap decodeRaw).count e = l.countP (fun r => decodeRaw r == some e) := by
  induction l with
  | nil => rfl
  | cons x xs ih =>
    cases hx : decodeRaw x with
    | none => simp [List.filterMap_cons, hx, List.countP_cons, ih]
    | some e2 =>
      by_cases he : e2 = e
      · subst he
        simp [List.filterMap_cons, hx, List.count_cons, List.countP_cons, ih]
      · simp [List.filterMap_cons, hx, List.count_cons, List.countP_cons, ih, he]

/-- C10: `zadd` keys members by the full serialized entry, so re-inserting
an entry value already stored does not grow the collection: the member's
score is updated in place, the new member is present with the newer
timestamp, and the listing contains the entry exactly once. -/
theorem addEntry_dedup (st : BoardState) (e : Entry) (t1 t2 : Nat)
    (h1 : ∀ p ∈ st.entries, p.2 < t1) (h12 : t1 ≤ t2) :
    (addEntry (addEntry st e t1) e t2).entries.length
        = (addEntry st e t1).entries.length ∧
    (Raw.valid e, t2) ∈ (addEntry (addEntry st e t1) e t2).entries ∧
    (addEntry (addEntry st e t1) e t2).entries.countP (fun p => p.1 == Raw.valid e) = 1 ∧
    (getEntries (addEntry (addEntry st e t1) e t2).entries).count e = 1 := by
  have hF : ∀ p ∈ st.entries.filter (fun p => !(p.1 == Raw.valid e)), p.2 < t1 :=
    fun p hp => h1 p (List.mem_filter.mp hp).1
  have hFne : ∀ p ∈ st.entries.filter (fun p => !(p.1 == Raw.valid e)),
      p.1 ≠ Raw.valid e :=
    fun p hp => by simpa using (List.mem_filter.mp hp).2
  set F := st.entries.filter (fun p => !(p.1 == Raw.valid e)) with hFdef
  have hA : zadd st.entries (Raw.valid e) t1 = F ++ [(Raw.valid e, t1)] :=
    zadd_top _ _ _ (fun p hp _ => h1 p hp)
  have hB : (addEntry st e t1).entries
      = F.drop (F.length + 1 - MAX_ENTRIES) ++ [(Raw.valid e, t1)] := by
    rw [addEntry_entries, hA, zremrange_trim, List.length_append, List.length_singleton]
    exact drop_append_le _ _ _ (by simp only [MAX_ENTRIES]; omega)
  set D := F.drop (F.length + 1 - MAX_ENTRIES) with hDdef
  have hDsub : ∀ p ∈ D, p ∈ F := fun p hp => List.mem_of_mem_drop hp
  have hDfil : D.filter (fun p => !(p.1 == Raw.valid e)) = D :=
    filter_ne_eq_self _ _ (fun p hp => hFne p (hDsub p hp))
  have hBfil : (addEntry st e t1).entries.filter (fun p => !(p.1 == Raw.valid e)) = D := by
    rw [hB, List.filter_append, hDfil]
    simp
  have hC : zadd (addEntry st e t1).entries (Raw.valid e) t2
      = D ++ [(Raw.valid e, t2)] := by
    rw [zadd_top _ _ _ ?side, hBfil]
    case side =>
      intro p hp hne
      rw [hB] at hp
      rcases List.mem_append.mp hp with h | h
      · exact lt_of_lt_of_le (hF p (hDsub p h)) h12
      · simp at h
        exact absurd (by rw [h]) hne
  have hDlen : D.length ≤ MAX_ENTRIES - 1 := by
    rw [hDdef, List.length_drop]
    simp only [MAX_ENTRIES]
    omega
  have hC2 : (addEntry (addEntry st e t1) e t2).entries = D ++ [(Raw.valid e, t2)] := by
    rw [addEntry_entries, hC, zremrange_trim]
    have : (D ++ [(Raw.valid e, t2)]).length - MAX_ENTRIES = 0 := by
      rw [List.length_append, List.length_singleton]
      simp only [MAX_ENTRIES] at hDlen ⊢
      omega
    rw [this, List.drop_zero]
  have hcount : (D ++ [(Raw.valid e, t2)]).countP (fun p => p.1 == Raw.valid e) = 1 := by
    rw [List.countP_append]
    have hzero : D.countP (fun p => p.1 == Raw.valid e) = 0 :=
      List.countP_eq_zero.mpr (fun p hp => by
        simpa using hFne p (hDsub p hp))
    rw [hzero]
    simp
  refine ⟨?_, ?_, ?_, ?_⟩
  · rw [hC2, hB, List.length_append, List.length_append]
    simp
  · rw [hC2]
    exact List.mem_append.mpr (Or.inr (by simp))
  · rw [hC2]
    exact hcount
  · rw [hC2]
    unfold getEntries
    rw [zrevrange_full]
    rw [show (D ++ [(Raw.valid e, t2)]).reverse.map (fun x => x.1)
        = ((D ++ [(Raw.valid e, t2)]).reverse.map Prod.fst) from rfl]
    rw [count_filterMap_decode]
    rw [List.countP_map]
    have hpredeq : ((fun r => decodeRaw r == some e) ∘ Prod.fst)
        = (fun p : Raw × Nat => p.1 == Raw.valid e) := by
      funext p
      exact decode_beq p.1 e
    rw [hpredeq]
    rw [(List.reverse_perm _).countP_eq]
    exact hcount

theorem addEntry_dedup_witness :
    ((∀ p ∈ (emptyBoard).entries, p.2 < 1) ∧ (1 : Nat) ≤ 2) ∧
    ((addEntry (addEntry emptyBoard (textEntry "a") 1) (textEntry "a") 2).entries.length
        = (addEntry emptyBoard (textEntry "a") 1).entries.length ∧
      (Raw.valid (textEntry "a"), 2)
          ∈ (addEntry (addEntry emptyBoard (textEntry "a") 1) (textEntry "a") 2).entries ∧
      (addEntry (addEntry emptyBoard (textEntry "a") 1) (textEntry "a") 2).entries.countP
          (fun p => p.1 == Raw.valid (textEntry "a")) = 1 ∧
      (getEntries (addEntry (addEntry emptyBoard (textEntry "a") 1)
          (textEntry "a") 2).entries).count (textEntry "a") = 1) :=
  ⟨⟨by decide, by decide⟩, addEntry_dedup emptyBoard (textEntry "a") 1 2 (by decide) (by decide)⟩

end LanClip
